import Mathlib

/-!
Verification development for the option-chart repository.

The quantitative core of the repository is a Black-Scholes pricing library
(`calculateD1`, `calculateD2`, `calculateOptionPrice`, `calculateGreeks`,
and the chart-data sweep generators) together with a seeded Brownian-motion
path simulator (`generatePath` in `BrownianMotion.js`).

Two embeddings are used:
* an idealized real-number model (`OptionChart` namespace), in which every
  JavaScript `number` is read as a real number — the right semantics for the
  algebraic/analytic properties (parity, monotonicity, boundary values);
* a special-value model (`OptionChart.JS` namespace) over a type `JSVal`
  carrying `NaN` and `±Infinity` alongside finite reals, mirroring IEEE-754
  double special-value propagation for the operations the source uses — the
  right semantics for the claims about NaN/Infinity behaviour.

The volatility sweep loops are embedded over `ℚ` (exact arithmetic, fully
computable) so that their iteration structure can be evaluated by `decide`.
-/

namespace OptionChart

noncomputable section

open Real Set MeasureTheory intervalIntegral Filter Topology

/-- Modelled from the spec: the repository imports `erf` from the external
mathjs library (not part of this repository); the spec describes it as a
high-precision implementation of the Gauss error function.  We embed it as
the mathematical error function. -/
def erf (x : ℝ) : ℝ := 2 / Real.sqrt π * ∫ t in (0:ℝ)..x, Real.exp (-t ^ 2)

/-- Source: `const cdf = (x) => 0.5 * (1 + erf(x / Math.sqrt(2)));`. -/
def cdf (x : ℝ) : ℝ := 0.5 * (1 + erf (x / Real.sqrt 2))

/-- Source (inside `calculateGreeks`):
`const pdf = (x) => Math.exp(-0.5 * x * x) / Math.sqrt(2 * Math.PI);`. -/
def pdf (x : ℝ) : ℝ := Real.exp (-0.5 * x * x) / Real.sqrt (2 * π)

/-- Option type: the source passes the string `'call'` or `'put'`. -/
inductive OptionType
  | call
  | put

/-- Source: `calculateD1 = (S, K, r, T, sigma) =>
(Math.log(S / K) + (r + sigma * sigma / 2) * T) / (sigma * Math.sqrt(T))`. -/
def calculateD1 (S K r T sigma : ℝ) : ℝ :=
  (Real.log (S / K) + (r + sigma * sigma / 2) * T) / (sigma * Real.sqrt T)

/-- Source: `calculateD2 = (d1, sigma, T) => d1 - sigma * Math.sqrt(T)`. -/
def calculateD2 (d1 sigma T : ℝ) : ℝ := d1 - sigma * Real.sqrt T

/-- Source: `calculateOptionPrice` in the Black-Scholes utility module. -/
def calculateOptionPrice (type : OptionType) (S K r T sigma : ℝ) : ℝ :=
  if T ≤ 0 then max 0 (match type with | .call => S - K | .put => K - S)
  else
    let d1 := calculateD1 S K r T sigma
    let d2 := calculateD2 d1 sigma T
    match type with
    | .call => S * cdf d1 - K * Real.exp (-r * T) * cdf d2
    | .put => K * Real.exp (-r * T) * cdf (-d2) - S * cdf (-d1)

/-- Result record of `calculateGreeks`, as the tuple
`(delta, gamma, theta, vega, rho)` (components in source field order). -/
abbrev Greeks : Type := ℝ × ℝ × ℝ × ℝ × ℝ

/-- Source: `calculateGreeks` in the Black-Scholes utility module
(theta is divided by 365 on return, vega and rho by 100 inline). -/
def calculateGreeks (type : OptionType) (S K r T sigma : ℝ) : Greeks :=
  if T ≤ 0 then
    let intrinsicValue := max (0:ℝ) (match type with | .call => S - K | .put => K - S)
    ((if intrinsicValue > 0 then (match type with | .call => 1 | .put => -1) else 0),
      0, 0, 0, 0)
  else
    let d1 := calculateD1 S K r T sigma
    let d2 := calculateD2 d1 sigma T
    let delta := match type with | .call => cdf d1 | .put => cdf d1 - 1
    let gamma := pdf d1 / (S * sigma * Real.sqrt T)
    let theta := match type with
      | .call => -S * pdf d1 * sigma / (2 * Real.sqrt T)
          - r * K * Real.exp (-r * T) * cdf d2
      | .put => -S * pdf d1 * sigma / (2 * Real.sqrt T)
          + r * K * Real.exp (-r * T) * cdf (-d2)
    let vega := S * Real.sqrt T * pdf d1 / 100
    let rho := match type with
      | .call => K * T * Real.exp (-r * T) * cdf d2 / 100
      | .put => -K * T * Real.exp (-r * T) * cdf (-d2) / 100
    (delta, gamma, theta / 365, vega, rho)

end

/-! ### Sweep loops and chart-data generators (exact-arithmetic model over `ℚ`)

The source iterates `for (let vol = minVol; vol <= bound; vol += volStep)`
by floating-point accumulation.  The grid arithmetic is embedded over `ℚ`
(exact rational arithmetic) so that the iteration structure is computable;
the per-point option prices remain real numbers. -/

/-- Source: `Math.round(vol * 100) / 100` (JavaScript `Math.round` rounds
half toward positive infinity, i.e. `⌊x + 1/2⌋`). -/
def round2 (q : ℚ) : ℚ := (⌊q * 100 + 1/2⌋ : ℤ) / 100

/-- Source loop `for (let v = start; v <= bound; v += step) ...` collecting the
successive loop-variable values.  The `0 < step` guard makes the function
total; the source loops forever when `step ≤ 0` and `start ≤ bound`, a case no
caller exercises. -/
def sweepLoop (bound step : ℚ) (start : ℚ) : List ℚ :=
  if h : 0 < step ∧ start ≤ bound then
    start :: sweepLoop bound step (start + step)
  else []
termination_by Nat.ceil ((bound + step - start) / step)
decreasing_by
  have hstep : 0 < step := h.1
  have hx : 0 ≤ (bound - start) / step := by
    apply div_nonneg _ hstep.le
    linarith [h.2]
  have key : (bound + step - start) / step = (bound - start) / step + 1 := by
    field_simp
    ring
  calc Nat.ceil ((bound + step - (start + step)) / step)
      = Nat.ceil ((bound - start) / step) := by ring_nf
    _ < Nat.ceil ((bound - start) / step) + 1 := Nat.lt_succ_self _
    _ = Nat.ceil ((bound + step - start) / step) := by
        rw [key, Nat.ceil_add_one hx]

noncomputable section

/-- Chart point produced by `generateVolatilityChartData`, as the tuple
`(underlyingPrice, optionPrice, volatility)` of the source's record. -/
abbrev PricePoint : Type := ℚ × ℝ × ℚ

/-- One series of `generateVolatilityChartData`, as the tuple
`(volatility, data)` of the source's record. -/
abbrev VolSeries : Type := ℚ × List PricePoint

/-- Source: `generateVolatilityChartData(type, S, K, r, T, minVol, maxVol,
volStep, range, points)`.  The price grid is centered on the strike price
`K`; the volatility loop bound is `maxVol + 0.0001`. -/
def generateVolatilityChartData (type : OptionType) (S K r T : ℚ)
    (minVol maxVol volStep : ℚ) (range : ℚ) (points : ℕ) : List VolSeries :=
  let minPrice := K * (1 - range)
  let maxPrice := K * (1 + range)
  let priceStep := (maxPrice - minPrice) / ((points : ℚ) - 1)
  let prices := sweepLoop maxPrice priceStep minPrice
  (sweepLoop (maxVol + 1/10000) volStep minVol).map fun vol =>
    let roundedVol := round2 vol
    (roundedVol, prices.map fun price =>
      (price,
        calculateOptionPrice type (price : ℝ) (K : ℝ) (r : ℝ) (T : ℝ) (roundedVol : ℝ),
        roundedVol))

/-- Data point of `generateDeltaVolatilityData`, as the tuple
`(volatility, greeks)`: the x-value is `roundedVol * 100` and the source
spreads the Greeks record into the point (here kept as the record). -/
abbrev GreeksPoint : Type := ℚ × Greeks

/-- Source: `generateDeltaVolatilityData(type, K, r, T, minVol, maxVol,
volStep)`. -/
def generateDeltaVolatilityData (type : OptionType) (K r T : ℚ)
    (minVol maxVol volStep : ℚ) : List GreeksPoint :=
  (sweepLoop (maxVol + 1/10000) volStep minVol).map fun vol =>
    let roundedVol := round2 vol
    let greeks := calculateGreeks type (K : ℝ) (K : ℝ) (r : ℝ) (T : ℝ) (roundedVol : ℝ)
    (roundedVol * 100, greeks)

/-- Data point of `generateDeltaUnderlyingData`, as the tuple
`(underlyingPrice, delta, volatility)`. -/
abbrev DeltaPoint : Type := ℚ × ℝ × ℚ

/-- One series of `generateDeltaUnderlyingData`, as the tuple
`(volatility, data)`. -/
abbrev DeltaSeries : Type := ℚ × List DeltaPoint

/-- Source: `generateDeltaUnderlyingData(type, S, K, r, T, minVol, maxVol,
volStep, range, points)`. -/
def generateDeltaUnderlyingData (type : OptionType) (S K r T : ℚ)
    (minVol maxVol volStep : ℚ) (range : ℚ) (points : ℕ) : List DeltaSeries :=
  let minPrice := K * (1 - range)
  let maxPrice := K * (1 + range)
  let priceStep := (maxPrice - minPrice) / ((points : ℚ) - 1)
  let prices := sweepLoop maxPrice priceStep minPrice
  (sweepLoop (maxVol + 1/10000) volStep minVol).map fun vol =>
    let roundedVol := round2 vol
    (roundedVol, prices.map fun price =>
      (price,
        (calculateGreeks type (price : ℝ) (K : ℝ) (r : ℝ) (T : ℝ) (roundedVol : ℝ)).1,
        roundedVol))

end

/-! ### IEEE-754 special-value model

`JSVal` represents a JavaScript `number` as either a finite real, `NaN`,
`+Infinity` or `-Infinity`.  The operations mirror IEEE-754 double semantics
for the cases the source can reach (ℝ has a single zero; the source only
divides by the nonnegatively-signed zero `sigma * Math.sqrt(T)`). -/

/-- JavaScript number value: finite real, NaN, or a signed infinity. -/
inductive JSVal
  | num (x : ℝ)
  | nan
  | inf
  | ninf

namespace JSVal

open scoped Classical

noncomputable section

/-- IEEE addition. -/
def jadd : JSVal → JSVal → JSVal
  | num a, num b => num (a + b)
  | num _, inf => inf
  | num _, ninf => ninf
  | inf, num _ => inf
  | ninf, num _ => ninf
  | inf, inf => inf
  | ninf, ninf => ninf
  | inf, ninf => nan
  | ninf, inf => nan
  | nan, _ => nan
  | _, nan => nan

/-- IEEE negation. -/
def jneg : JSVal → JSVal
  | num a => num (-a)
  | nan => nan
  | inf => ninf
  | ninf => inf

/-- IEEE subtraction. -/
def jsub (a b : JSVal) : JSVal := jadd a (jneg b)

/-- IEEE multiplication (`0 * ±∞ = NaN`). -/
def jmul : JSVal → JSVal → JSVal
  | num a, num b => num (a * b)
  | num a, inf => if 0 < a then inf else if a < 0 then ninf else nan
  | num a, ninf => if 0 < a then ninf else if a < 0 then inf else nan
  | inf, num b => if 0 < b then inf else if b < 0 then ninf else nan
  | ninf, num b => if 0 < b then ninf else if b < 0 then inf else nan
  | inf, inf => inf
  | inf, ninf => ninf
  | ninf, inf => ninf
  | ninf, ninf => inf
  | nan, _ => nan
  | _, nan => nan

/-- IEEE division; a finite nonzero value divided by (positive) zero gives a
signed infinity, `0 / 0 = NaN`. -/
def jdiv : JSVal → JSVal → JSVal
  | num a, num b =>
      if b = 0 then (if 0 < a then inf else if a < 0 then ninf else nan)
      else num (a / b)
  | num _, inf => num 0
  | num _, ninf => num 0
  | inf, num b => if 0 ≤ b then inf else ninf
  | ninf, num b => if 0 ≤ b then ninf else inf
  | inf, inf => nan
  | inf, ninf => nan
  | ninf, inf => nan
  | ninf, ninf => nan
  | nan, _ => nan
  | _, nan => nan

/-- JavaScript `Math.exp`. -/
def jexp : JSVal → JSVal
  | num a => num (Real.exp a)
  | inf => inf
  | ninf => num 0
  | nan => nan

/-- JavaScript `Math.log` (`log 0 = -Infinity`, `log x = NaN` for `x < 0`). -/
def jlog : JSVal → JSVal
  | num a => if 0 < a then num (Real.log a) else if a = 0 then ninf else nan
  | inf => inf
  | ninf => nan
  | nan => nan

/-- JavaScript `Math.sqrt` (`NaN` on negative input). -/
def jsqrt : JSVal → JSVal
  | num a => if 0 ≤ a then num (Real.sqrt a) else nan
  | inf => inf
  | ninf => nan
  | nan => nan

/-- JavaScript `Math.max` of two values (`NaN` if either operand is `NaN`). -/
def jmax : JSVal → JSVal → JSVal
  | num a, num b => num (max a b)
  | nan, _ => nan
  | _, nan => nan
  | inf, _ => inf
  | _, inf => inf
  | ninf, v => v
  | v, ninf => v

/-- Modelled from the spec: the mathjs `erf` library function on special
values — it returns `±1` for arguments of magnitude at least `2^53`
(hence for `±Infinity`) and propagates `NaN`. -/
def jerf : JSVal → JSVal
  | num a => num (erf a)
  | inf => num 1
  | ninf => num (-1)
  | nan => nan

end

end JSVal

namespace JS

open JSVal

noncomputable section

/-- Special-value model of `cdf`. -/
def cdf (x : JSVal) : JSVal :=
  jmul (num 0.5) (jadd (num 1) (jerf (jdiv x (num (Real.sqrt 2)))))

/-- Special-value model of `calculateD1` (the arguments themselves are finite
reals; specials arise from `Math.log` and the division). -/
def calculateD1 (S K r T sigma : ℝ) : JSVal :=
  jdiv (jadd (jlog (jdiv (num S) (num K))) (num ((r + sigma * sigma / 2) * T)))
    (jmul (num sigma) (jsqrt (num T)))

/-- Special-value model of `calculateD2`. -/
def calculateD2 (d1 : JSVal) (sigma T : ℝ) : JSVal :=
  jsub d1 (jmul (num sigma) (jsqrt (num T)))

/-- Special-value model of `calculateOptionPrice`. -/
def calculateOptionPrice (type : OptionType) (S K r T sigma : ℝ) : JSVal :=
  if T ≤ 0 then
    jmax (num 0) (num (match type with | .call => S - K | .put => K - S))
  else
    let d1 := calculateD1 S K r T sigma
    let d2 := calculateD2 d1 sigma T
    match type with
    | .call =>
        jsub (jmul (num S) (cdf d1))
          (jmul (jmul (num K) (jexp (num (-r * T)))) (cdf d2))
    | .put =>
        jsub (jmul (jmul (num K) (jexp (num (-r * T)))) (cdf (jneg d2)))
          (jmul (num S) (cdf (jneg d1)))

end

end JS

/-! ### Brownian motion simulator (`BrownianMotion.js`) -/

/-- Source: `seed = (seed * 9301 + 49297) % 233280` (the linear congruential
update inside `random`). -/
def lcg (seed : ℕ) : ℕ := (seed * 9301 + 49297) % 233280

/-- JavaScript truncation toward zero. -/
noncomputable def jsTrunc (x : ℝ) : ℤ := if 0 ≤ x then ⌊x⌋ else -⌊-x⌋

/-- JavaScript remainder operator `n % d` on finite doubles:
`n - d * trunc(n / d)`. -/
noncomputable def jsMod (n d : ℝ) : ℝ := n - d * (jsTrunc (n / d) : ℝ)

/-- Source: the seeded `random` closure inside `generatePath` — one LCG step
followed by a Box-Muller transform; returns the sample and the new seed
state (the source mutates the captured `seed` variable). -/
noncomputable def random (seed : ℕ) : JSVal × ℕ :=
  let seed2 := lcg seed
  let rnd : ℝ := (seed2 : ℝ) / 233280
  let u1 := rnd
  let u2 : ℝ := jsMod ((seed2 : ℝ) / 233280 + 0.1) 1
  let z := JSVal.jmul
    (JSVal.jsqrt (JSVal.jmul (JSVal.num (-2)) (JSVal.jlog (JSVal.num u1))))
    (JSVal.num (Real.cos (2 * Real.pi * u2)))
  (z, seed2)

/-- Iteration `for (let t = 1; t <= timeSteps; t++)` of `generatePath`,
threading the current value and the LCG seed state. -/
noncomputable def genSteps (drift diffusion dt sqrtDt : ℝ) :
    ℕ → ℕ → JSVal → ℕ → List (ℝ × JSVal)
  | 0, _, _, _ => []
  | rem + 1, t, value, seed =>
      let rs := random seed
      let randomComponent :=
        JSVal.jmul (JSVal.jmul (JSVal.jmul (JSVal.num diffusion) value) (JSVal.num sqrtDt)) rs.1
      let driftComponent := JSVal.jmul (JSVal.jmul (JSVal.num drift) value) (JSVal.num dt)
      let value2 := JSVal.jadd (JSVal.jadd value driftComponent) randomComponent
      ((t : ℝ) * dt, value2) :: genSteps drift diffusion dt sqrtDt rem (t + 1) value2 rs.2

/-- Source: `generatePath(drift, diffusion, timeHorizon, timeSteps,
initialValue, seed)`; returns the list of `(time, value)` points. -/
noncomputable def generatePath (drift diffusion timeHorizon : ℝ) (timeSteps : ℕ)
    (initialValue : ℝ) (seed : ℕ) : List (ℝ × JSVal) :=
  let dt := timeHorizon / (timeSteps : ℝ)
  let sqrtDt := Real.sqrt dt
  (0, JSVal.num initialValue) ::
    genSteps drift diffusion dt sqrtDt timeSteps 1 (JSVal.num initialValue) seed

/-! ## Properties of the error function and the normal CDF -/

section NormalLemmas

open Real MeasureTheory intervalIntegral Set Filter Topology

lemma gauss_integrable : Integrable fun t : ℝ => Real.exp (-t ^ 2) := by
  have h := integrable_exp_neg_mul_sq (show (0:ℝ) < 1 by norm_num)
  simpa using h

lemma erf_neg (x : ℝ) : erf (-x) = -erf x := by
  have h : (∫ t in (0:ℝ)..(-x), Real.exp (-t ^ 2))
      = -∫ t in (0:ℝ)..x, Real.exp (-t ^ 2) := by
    have h1 : (∫ t in (0:ℝ)..(-x), Real.exp (-t ^ 2))
        = ∫ t in (0:ℝ)..(-x), (fun u => Real.exp (-u ^ 2)) (-t) := by
      simp
    rw [h1, intervalIntegral.integral_comp_neg fun u => Real.exp (-u ^ 2), neg_neg,
      neg_zero, intervalIntegral.integral_symm]
  simp [erf, h, mul_neg]

lemma cdf_neg (x : ℝ) : cdf (-x) = 1 - cdf x := by
  unfold cdf
  rw [neg_div, erf_neg]
  ring

lemma pdf_nonneg (x : ℝ) : 0 ≤ pdf x := by
  unfold pdf
  positivity

lemma hasDerivAt_cdf (x : ℝ) : HasDerivAt cdf (pdf x) x := by
  have hcont : Continuous fun t : ℝ => Real.exp (-t ^ 2) := by fun_prop
  have hftc : HasDerivAt (fun u : ℝ => ∫ t in (0:ℝ)..u, Real.exp (-t ^ 2))
      (Real.exp (-(x / Real.sqrt 2) ^ 2)) (x / Real.sqrt 2) :=
    intervalIntegral.integral_hasDerivAt_right
      (hcont.intervalIntegrable _ _)
      (hcont.stronglyMeasurableAtFilter _ _)
      hcont.continuousAt
  have herf : HasDerivAt erf (2 / Real.sqrt π * Real.exp (-(x / Real.sqrt 2) ^ 2))
      (x / Real.sqrt 2) := by
    simpa [erf] using hftc.const_mul (2 / Real.sqrt π)
  have h1 : HasDerivAt (fun u : ℝ => u / Real.sqrt 2) (1 / Real.sqrt 2) x := by
    simpa using (hasDerivAt_id x).div_const (Real.sqrt 2)
  have h2 := herf.comp x h1
  have h3 := (h2.const_add 1).const_mul (0.5 : ℝ)
  have hsq : (x / Real.sqrt 2) ^ 2 = 0.5 * x * x := by
    rw [div_pow, Real.sq_sqrt (by norm_num : (0:ℝ) ≤ 2)]
    ring
  have hval : 0.5 * (2 / Real.sqrt π * Real.exp (-(x / Real.sqrt 2) ^ 2) * (1 / Real.sqrt 2))
      = pdf x := by
    rw [hsq]
    unfold pdf
    rw [Real.sqrt_mul (by norm_num : (0:ℝ) ≤ 2) π]
    have hpi : Real.sqrt π ≠ 0 := ne_of_gt (Real.sqrt_pos.mpr pi_pos)
    have h2 : Real.sqrt 2 ≠ 0 := ne_of_gt (Real.sqrt_pos.mpr (by norm_num))
    field_simp
    ring
  rw [hval] at h3
  exact h3

lemma cdf_nonneg (x : ℝ) : 0 ≤ cdf x := by
  have erf_le_one : ∀ y : ℝ, erf y ≤ 1 := by
    intro x
    have hpi : (0:ℝ) < Real.sqrt π := Real.sqrt_pos.mpr pi_pos
    have hbound : ∀ y : ℝ, 0 ≤ y →
        (∫ t in (0:ℝ)..y, Real.exp (-t ^ 2)) ≤ Real.sqrt π / 2 := by
      intro y hy
      rw [intervalIntegral.integral_of_le hy]
      have h1 : (∫ t in Ioc (0:ℝ) y, Real.exp (-t ^ 2))
          ≤ ∫ t in Ioi (0:ℝ), Real.exp (-t ^ 2) := by
        apply setIntegral_mono_set gauss_integrable.integrableOn
        · filter_upwards with t using (Real.exp_pos _).le
        · exact (Set.Ioc_subset_Ioi_self).eventuallyLE
      have h2 : (∫ t in Ioi (0:ℝ), Real.exp (-t ^ 2)) = Real.sqrt π / 2 := by
        have h := integral_gaussian_Ioi 1
        simpa using h
      rw [h2] at h1
      exact h1
    rcases le_or_lt 0 x with hx | hx
    · have h := mul_le_mul_of_nonneg_left (hbound x hx)
        (by positivity : (0:ℝ) ≤ 2 / Real.sqrt π)
      calc erf x ≤ 2 / Real.sqrt π * (Real.sqrt π / 2) := h
        _ = 1 := by field_simp
    · have h1 : 0 ≤ erf (-x) := by
        apply mul_nonneg (by positivity)
        exact intervalIntegral.integral_nonneg (by linarith) fun t _ => (Real.exp_pos _).le
      rw [erf_neg] at h1
      linarith
  have h := erf_le_one (-(x / Real.sqrt 2))
  rw [erf_neg] at h
  unfold cdf
  linarith

lemma cdf_tendsto_atBot : Tendsto cdf atBot (𝓝 0) := by
  have hIic : (∫ t in Iic (0:ℝ), Real.exp (-t ^ 2)) = Real.sqrt π / 2 := by
    have h1 : (∫ t in Iic (0:ℝ), Real.exp (-t ^ 2))
        = ∫ t in Iic (0:ℝ), (fun u => Real.exp (-u ^ 2)) (-t) := by
      simp
    have h2 := integral_comp_neg_Iic (0:ℝ) fun u => Real.exp (-u ^ 2)
    rw [h1, h2, neg_zero]
    have h := integral_gaussian_Ioi 1
    simpa using h
  have herf : Tendsto erf atBot (𝓝 (-1)) := by
    have h : Tendsto (fun x : ℝ => ∫ t in x..(0:ℝ), Real.exp (-t ^ 2)) atBot
        (𝓝 (Real.sqrt π / 2)) := by
      have h0 := MeasureTheory.intervalIntegral_tendsto_integral_Iic (0:ℝ)
        (gauss_integrable.integrableOn) tendsto_id
      rw [hIic] at h0
      exact h0
    have h2 : Tendsto
        (fun x : ℝ => 2 / Real.sqrt π * -(∫ t in x..(0:ℝ), Real.exp (-t ^ 2)))
        atBot (𝓝 (2 / Real.sqrt π * -(Real.sqrt π / 2))) :=
      (h.neg).const_mul _
    have heq : (fun x : ℝ => 2 / Real.sqrt π * -(∫ t in x..(0:ℝ), Real.exp (-t ^ 2)))
        = erf := by
      funext x
      rw [← intervalIntegral.integral_symm]
      rfl
    have hval : 2 / Real.sqrt π * -(Real.sqrt π / 2) = -1 := by
      have hpi : Real.sqrt π ≠ 0 := ne_of_gt (Real.sqrt_pos.mpr pi_pos)
      field_simp
      ring
    rw [heq, hval] at h2
    exact h2
  have h1 : Tendsto (fun x : ℝ => x / Real.sqrt 2) atBot atBot :=
    tendsto_id.atBot_div_const (Real.sqrt_pos.mpr (by norm_num))
  have h2 : Tendsto (fun x : ℝ => erf (x / Real.sqrt 2)) atBot (𝓝 (-1)) :=
    herf.comp h1
  have hone : Tendsto (fun _ : ℝ => (1:ℝ)) atBot (𝓝 1) := tendsto_const_nhds
  have h3 := (hone.add h2).const_mul (0.5 : ℝ)
  have hz : (0.5 : ℝ) * (1 + -1) = 0 := by norm_num
  rw [hz] at h3
  exact h3

end NormalLemmas

/-! ## Claim theorems: boundary behaviour, parity, Greeks -/

section ClaimsBasic

open Real

/-- C1: for every `S`, `K`, `r`, `sigma` and every `T ≤ 0`, `calculateOptionPrice`
returns exactly the intrinsic value — `max 0 (S - K)` for a call and
`max 0 (K - S)` for a put — without evaluating `d1` or `d2`; in particular the
price at `T = 0` equals the intrinsic value exactly. -/
theorem price_at_expiry_intrinsic (S K r T sigma : ℝ) (hT : T ≤ 0) :
    calculateOptionPrice .call S K r T sigma = max 0 (S - K) ∧
    calculateOptionPrice .put S K r T sigma = max 0 (K - S) := by
  constructor <;> simp [calculateOptionPrice, hT]

/-- Witness for `price_at_expiry_intrinsic` at `S = 3`, `K = 1`, `T = 0`. -/
theorem price_at_expiry_intrinsic_witness :
    calculateOptionPrice .call 3 1 0 0 1 = 2 ∧ calculateOptionPrice .put 3 1 0 0 1 = 0 := by
  have h := price_at_expiry_intrinsic 3 1 0 0 1 le_rfl
  constructor
  · rw [h.1]; norm_num
  · rw [h.2]; norm_num

/-- C3: for every option type and every `T ≤ 0`, `calculateGreeks` returns
`delta = +1` (call) or `-1` (put) when the intrinsic value is strictly
positive and `delta = 0` otherwise, and `gamma = theta = vega = rho = 0`. -/
theorem greeks_at_expiry (type : OptionType) (S K r T sigma : ℝ) (hT : T ≤ 0) :
    (calculateGreeks type S K r T sigma).1 =
      (if 0 < max (0:ℝ) (match type with | .call => S - K | .put => K - S)
        then (match type with | .call => (1:ℝ) | .put => -1) else 0) ∧
    (calculateGreeks type S K r T sigma).2.1 = 0 ∧
    (calculateGreeks type S K r T sigma).2.2.1 = 0 ∧
    (calculateGreeks type S K r T sigma).2.2.2.1 = 0 ∧
    (calculateGreeks type S K r T sigma).2.2.2.2 = 0 := by
  cases type <;> simp [calculateGreeks, hT]

/-- Witness for `greeks_at_expiry` at `S = 3`, `K = 1`, `T = 0` (in the money:
delta `1`, all other Greeks `0`). -/
theorem greeks_at_expiry_witness :
    (calculateGreeks .call 3 1 0 0 1).1 = 1 ∧
    (calculateGreeks .call 3 1 0 0 1).2.1 = 0 := by
  have h := greeks_at_expiry .call 3 1 0 0 1 le_rfl
  refine ⟨?_, h.2.1⟩
  rw [h.1]
  norm_num

/-- C5: for valid parameters with `T > 0` the gamma of `calculateGreeks` is
identical for call and put, equals `pdf d1 / (S * sigma * sqrt T)`, and is
non-negative; together with the `T ≤ 0` branch (where gamma is `0`), gamma is
non-negative for every time to maturity. -/
theorem gamma_identical_nonneg (type : OptionType) (S K r T sigma : ℝ)
    (hS : 0 < S) (hK : 0 < K) (hT : 0 < T) (hsig : 0 < sigma) :
    (calculateGreeks .call S K r T sigma).2.1 = (calculateGreeks .put S K r T sigma).2.1 ∧
    (calculateGreeks type S K r T sigma).2.1
      = pdf (calculateD1 S K r T sigma) / (S * sigma * Real.sqrt T) ∧
    0 ≤ (calculateGreeks type S K r T sigma).2.1 ∧
    ∀ T2 : ℝ, 0 ≤ (calculateGreeks type S K r T2 sigma).2.1 := by
  have hnn : ∀ (ty : OptionType) (T2 : ℝ), 0 ≤ (calculateGreeks ty S K r T2 sigma).2.1 := by
    intro ty T2
    rcases le_or_lt T2 0 with h | h
    · cases ty <;> simp [calculateGreeks, h]
    · have key : (calculateGreeks ty S K r T2 sigma).2.1
          = pdf (calculateD1 S K r T2 sigma) / (S * sigma * Real.sqrt T2) := by
        cases ty <;> simp [calculateGreeks, not_le.mpr h]
      rw [key]
      exact div_nonneg (pdf_nonneg _)
        (mul_nonneg (mul_nonneg hS.le hsig.le) (Real.sqrt_nonneg _))
  have hgamma : ∀ ty : OptionType, (calculateGreeks ty S K r T sigma).2.1
      = pdf (calculateD1 S K r T sigma) / (S * sigma * Real.sqrt T) := by
    intro ty
    cases ty <;> simp [calculateGreeks, not_le.mpr hT]
  exact ⟨(hgamma .call).trans (hgamma .put).symm, hgamma type, hnn type T, hnn type⟩

/-- Witness for `gamma_identical_nonneg` at `S = K = 1`, `r = 0`, `T = 1`,
`sigma = 1`. -/
theorem gamma_identical_nonneg_witness :
    (calculateGreeks .call 1 1 0 1 1).2.1 = (calculateGreeks .put 1 1 0 1 1).2.1 ∧
    0 ≤ (calculateGreeks .call 1 1 0 1 1).2.1 := by
  have h := gamma_identical_nonneg .call 1 1 0 1 1
    (by norm_num) (by norm_num) (by norm_num) (by norm_num)
  exact ⟨h.1, h.2.2.1⟩

/-- C6: the standard normal CDF satisfies `cdf 0 = 0.5` and the symmetry
`cdf (-x) = 1 - cdf x` for every real `x`, to within `1e-9` (in the real-number
model both hold exactly). -/
theorem cdf_half_and_symmetry :
    |cdf 0 - 0.5| ≤ 1e-9 ∧ ∀ x : ℝ, |cdf (-x) - (1 - cdf x)| ≤ 1e-9 := by
  constructor
  · have h0 : erf 0 = 0 := by
      unfold erf
      rw [intervalIntegral.integral_same, mul_zero]
    unfold cdf
    rw [zero_div, h0]
    norm_num
  · intro x
    rw [cdf_neg, sub_self, abs_zero]
    norm_num

lemma parity_eq (S K r T sigma : ℝ) (hT : 0 ≤ T) :
    calculateOptionPrice .call S K r T sigma - calculateOptionPrice .put S K r T sigma
      = S - K * Real.exp (-r * T) := by
  rcases eq_or_lt_of_le hT with h0 | hpos
  · rw [← h0]
    simp only [calculateOptionPrice, le_refl, if_pos, mul_zero, neg_zero, Real.exp_zero,
      mul_one]
    rcases le_total S K with h | h
    · rw [max_eq_left (by linarith : S - K ≤ 0), max_eq_right (by linarith : (0:ℝ) ≤ K - S)]
      ring
    · rw [max_eq_right (by linarith : (0:ℝ) ≤ S - K), max_eq_left (by linarith : K - S ≤ 0)]
      ring
  · simp only [calculateOptionPrice, if_neg (not_le.mpr hpos)]
    have hsum : ∀ y : ℝ, cdf y + cdf (-y) = 1 := fun y => by rw [cdf_neg]; ring
    have h1 := hsum (calculateD1 S K r T sigma)
    have h2 := hsum (calculateD2 (calculateD1 S K r T sigma) sigma T)
    linear_combination S * h1 - (K * Real.exp (-r * T)) * h2

/-- C2: put-call parity — for every valid parameter tuple (`S > 0`, `K > 0`,
any `r`, `T ≥ 0`, `sigma > 0`) the call price minus the put price equals
`S - K * exp (-r * T)` to within `1e-9` (exactly, in the real-number model);
at `T = 0` both sides reduce to `S - K`. -/
theorem put_call_parity (S K r T sigma : ℝ) (hS : 0 < S) (hK : 0 < K)
    (hsig : 0 < sigma) (hT : 0 ≤ T) :
    |calculateOptionPrice .call S K r T sigma - calculateOptionPrice .put S K r T sigma
      - (S - K * Real.exp (-r * T))| ≤ 1e-9 := by
  rw [parity_eq S K r T sigma hT, sub_self, abs_zero]
  norm_num

/-- Witness for `put_call_parity` at `S = K = 1`, `r = 0`, `T = 0`, `sigma = 1`. -/
theorem put_call_parity_witness :
    |calculateOptionPrice .call 1 1 0 0 1 - calculateOptionPrice .put 1 1 0 0 1
      - (1 - 1 * Real.exp (-0 * 0))| ≤ 1e-9 :=
  put_call_parity 1 1 0 0 1 (by norm_num) (by norm_num) (by norm_num) le_rfl

/-- C8: the Brownian path simulator is deterministic in its seed — two
invocations of `generatePath` with identical arguments (including the seed)
produce identical output sequences; in the embedding the mutable seed of the
source's `random` closure is threaded explicitly, so the whole simulation is a
pure function of its arguments. -/
theorem generatePath_deterministic (drift1 diffusion1 timeHorizon1 : ℝ) (timeSteps1 : ℕ)
    (initialValue1 : ℝ) (seed1 : ℕ) (drift2 diffusion2 timeHorizon2 : ℝ) (timeSteps2 : ℕ)
    (initialValue2 : ℝ) (seed2 : ℕ) (h1 : drift1 = drift2) (h2 : diffusion1 = diffusion2)
    (h3 : timeHorizon1 = timeHorizon2) (h4 : timeSteps1 = timeSteps2)
    (h5 : initialValue1 = initialValue2) (h6 : seed1 = seed2) :
    generatePath drift1 diffusion1 timeHorizon1 timeSteps1 initialValue1 seed1
      = generatePath drift2 diffusion2 timeHorizon2 timeSteps2 initialValue2 seed2 := by
  rw [h1, h2, h3, h4, h5, h6]

/-- Witness for `generatePath_deterministic` on a concrete parameter tuple. -/
theorem generatePath_deterministic_witness :
    generatePath 0 1 1 2 100 7 = generatePath 0 1 1 2 100 7 :=
  generatePath_deterministic 0 1 1 2 100 7 0 1 1 2 100 7 rfl rfl rfl rfl rfl rfl

lemma call_formula (S K r T sigma : ℝ) (hT : 0 < T) :
    calculateOptionPrice .call S K r T sigma
      = S * cdf (calculateD1 S K r T sigma)
        - K * Real.exp (-r * T) * cdf (calculateD2 (calculateD1 S K r T sigma) sigma T) := by
  simp [calculateOptionPrice, not_le.mpr hT]

lemma put_formula (S K r T sigma : ℝ) (hT : 0 < T) :
    calculateOptionPrice .put S K r T sigma
      = K * Real.exp (-r * T) * cdf (-(calculateD2 (calculateD1 S K r T sigma) sigma T))
        - S * cdf (-(calculateD1 S K r T sigma)) := by
  simp [calculateOptionPrice, not_le.mpr hT]

end ClaimsBasic

/-! ## Claim C7: inclusivity of the epsilon-guarded sweep loops -/

section SweepClaims

/-- Evaluation of the volatility sweep loop at the counterexample input
`minVol = 0`, `maxVol = 2/10000`, `volStep = 1/10000`: the `+ 0.0001`
epsilon guard admits a fourth iteration beyond `maxVol`. -/
lemma sweepLoop_counterexample :
    sweepLoop (2/10000 + 1/10000) (1/10000) 0 = [0, 1/10000, 2/10000, 3/10000] := by
  rw [sweepLoop, dif_pos (by norm_num)]
  rw [sweepLoop, dif_pos (by norm_num)]
  rw [sweepLoop, dif_pos (by norm_num)]
  rw [sweepLoop, dif_pos (by norm_num)]
  rw [sweepLoop, dif_neg (by norm_num)]
  norm_num

/-- Counterexample to C7 as stated: with `minVol = 0`, `volStep = 1/10000 > 0`
and `maxVol = 2/10000 = minVol + 2 * volStep` (so `n = 2`, and the claim
predicts exactly three entries, one per level `round2 (k * volStep)`,
`k = 0, 1, 2`), `generateDeltaVolatilityData` emits four entries — the
epsilon guard `vol ≤ maxVol + 0.0001` admits the extra level
`3/10000 > maxVol` — and after 2-decimal rounding all four carry the same
label `0`, so no level has exactly one series. -/
theorem sweep_inclusive_counterexample :
    ((2:ℚ)/10000 = 0 + 2 * (1/10000)) ∧
    (generateDeltaVolatilityData .call 1 0 1 0 (2/10000) (1/10000)).length = 4 ∧
    (generateDeltaVolatilityData .call 1 0 1 0 (2/10000) (1/10000)).map
      Prod.fst = [0, 0, 0, 0] := by
  refine ⟨by norm_num, ?_, ?_⟩
  · rw [generateDeltaVolatilityData, List.length_map, sweepLoop_counterexample]
    rfl
  · rw [generateDeltaVolatilityData, List.map_map, sweepLoop_counterexample]
    simp only [List.map_cons, List.map_nil, Function.comp_apply]
    norm_num [round2]

/-- C7 amended: for every volatility sweep with `volStep > 0.0001` (strictly
greater than the loop's epsilon guard) and `maxVol = minVol + n * volStep`,
each of the three generators produces exactly one series/point per index
`k = 0..n`, labelled `round2 (minVol + k * volStep)` (times 100 for
`generateDeltaVolatilityData`), including the level `maxVol` itself at
`k = n`; for `volStep ≤ 0.0001` the epsilon guard admits extra iterations
beyond `maxVol`, and 2-decimal rounding can collapse distinct levels. -/
theorem sweep_inclusive_amended (type : OptionType) (S K r T range : ℚ) (points : ℕ)
    (minVol maxVol volStep : ℚ) (n : ℕ) (hstep : 1/10000 < volStep)
    (hmax : maxVol = minVol + n * volStep) :
    (generateVolatilityChartData type S K r T minVol maxVol volStep range points).map
        Prod.fst
      = (List.range (n + 1)).map (fun k : ℕ => round2 (minVol + (k : ℚ) * volStep)) ∧
    (generateDeltaVolatilityData type K r T minVol maxVol volStep).map
        Prod.fst
      = (List.range (n + 1)).map (fun k : ℕ => round2 (minVol + (k : ℚ) * volStep) * 100) ∧
    (generateDeltaUnderlyingData type S K r T minVol maxVol volStep range points).map
        Prod.fst
      = (List.range (n + 1)).map (fun k : ℕ => round2 (minVol + (k : ℚ) * volStep)) := by
  have sweepLoop_inclusive :
      ∀ (n : ℕ) (lo hi : ℚ), hi = lo + n * volStep →
        sweepLoop (hi + 1/10000) volStep lo
          = (List.range (n + 1)).map fun k : ℕ => lo + (k : ℚ) * volStep := by
    intro n
    induction n with
    | zero =>
      intro lo hi hhi
      subst hhi
      rw [sweepLoop]
      rw [dif_pos ⟨by linarith, by push_cast; linarith⟩]
      rw [sweepLoop]
      rw [dif_neg (by push_cast; intro hc; linarith [hc.2])]
      simp [List.range_succ]
    | succ m ih =>
      intro lo hi hhi
      subst hhi
      rw [sweepLoop]
      rw [dif_pos ⟨by linarith, by push_cast; nlinarith [Nat.cast_nonneg (α := ℚ) m]⟩]
      have harg : lo + (↑(m + 1) : ℚ) * volStep + 1/10000
          = ((lo + volStep) + (↑m : ℚ) * volStep) + 1/10000 := by
        push_cast
        ring
      rw [harg, ih (lo + volStep) ((lo + volStep) + (↑m : ℚ) * volStep) rfl]
      conv_rhs => rw [List.range_succ_eq_map]
      rw [List.map_cons, List.map_map]
      congr 1
      · push_cast
        ring
      · apply List.map_congr_left
        intro k _
        simp only [Function.comp_apply]
        push_cast
        ring
  have h := sweepLoop_inclusive n minVol maxVol hmax
  refine ⟨?_, ?_, ?_⟩
  · rw [generateVolatilityChartData, List.map_map, h, List.map_map]
    rfl
  · rw [generateDeltaVolatilityData, List.map_map, h, List.map_map]
    rfl
  · rw [generateDeltaUnderlyingData, List.map_map, h, List.map_map]
    rfl

/-- Witness for `sweep_inclusive_amended`: the sweep `minVol = 0.1`,
`maxVol = 0.3`, `volStep = 0.1` produces exactly the three labels
`10, 20, 30` (volatility times 100). -/
theorem sweep_inclusive_amended_witness :
    ((1:ℚ)/10000 < 1/10) ∧
    (generateDeltaVolatilityData .call 1 0 1 (1/10) (3/10) (1/10)).map
      Prod.fst = [10, 20, 30] := by
  refine ⟨by norm_num, ?_⟩
  have h := (sweep_inclusive_amended .call 1 1 0 1 1 2 (1/10) (3/10) (1/10) 2
    (by norm_num) (by push_cast; norm_num)).2.1
  rw [h]
  norm_num [List.range_succ, round2]

end SweepClaims

/-! ## Claims C9 and C10: IEEE-754 special-value behaviour -/

section SpecialValueClaims

open JSVal

/-- C10: the seeded normal sampler inside `generatePath` is not total over
finite values — at the seed `22643` the linear-congruential update
`(seed * 9301 + 49297) mod 233280` yields `0`, the Box-Muller transform
computes `sqrt(-2 * log 0) * cos(0.2π) = +Infinity`, and `generatePath`
returns a path containing a non-finite value even for valid simulation
parameters (`drift = 0`, `diffusion = 1 > 0`, `T = 1`, `timeSteps = 1`,
`initialValue = 100 > 0`). -/
theorem lcg_zero_nonfinite_path :
    (22643 * 9301 + 49297) % 233280 = 0 ∧
    ∃ p ∈ generatePath 0 1 1 1 100 22643, p.2 = JSVal.inf := by
  refine ⟨by norm_num, ?_⟩
  have hlcg : lcg 22643 = 0 := by norm_num [lcg]
  have hrand : random 22643 = (JSVal.inf, 0) := by
    have h : random 22643
        = (jmul
            (jsqrt (jmul (JSVal.num (-2))
              (jlog (JSVal.num (((lcg 22643 : ℕ) : ℝ) / 233280)))))
            (JSVal.num (Real.cos (2 * Real.pi
              * jsMod (((lcg 22643 : ℕ) : ℝ) / 233280 + 0.1) 1))),
           lcg 22643) := rfl
    rw [h, hlcg]
    have hz : ((0:ℕ):ℝ) / 233280 = 0 := by norm_num
    rw [hz]
    have hfl : ⌊(0.1:ℝ)⌋ = 0 := by
      rw [Int.floor_eq_zero_iff]
      constructor <;> norm_num
    have hu2 : jsMod ((0:ℝ) + 0.1) 1 = 0.1 := by
      unfold jsMod jsTrunc
      norm_num [hfl]
    rw [hu2]
    have hlog : jlog (JSVal.num 0) = JSVal.ninf := by
      have h2 : jlog (JSVal.num 0)
          = if (0:ℝ) < 0 then JSVal.num (Real.log 0)
            else if (0:ℝ) = 0 then JSVal.ninf else JSVal.nan := rfl
      rw [h2, if_neg (lt_irrefl (0:ℝ)), if_pos rfl]
    rw [hlog]
    have hm2 : jmul (JSVal.num (-2)) JSVal.ninf = JSVal.inf := by
      have h2 : jmul (JSVal.num (-2)) JSVal.ninf
          = if (0:ℝ) < -2 then JSVal.ninf
            else if (-2:ℝ) < 0 then JSVal.inf else JSVal.nan := rfl
      rw [h2, if_neg (by norm_num), if_pos (by norm_num)]
    rw [hm2, show jsqrt JSVal.inf = JSVal.inf from rfl]
    have hcos : (0:ℝ) < Real.cos (2 * Real.pi * 0.1) := by
      apply Real.cos_pos_of_mem_Ioo
      constructor
      · nlinarith [Real.pi_pos]
      · nlinarith [Real.pi_pos]
    have hmc : jmul JSVal.inf (JSVal.num (Real.cos (2 * Real.pi * 0.1))) = JSVal.inf := by
      have h2 : jmul JSVal.inf (JSVal.num (Real.cos (2 * Real.pi * 0.1)))
          = if 0 < Real.cos (2 * Real.pi * 0.1) then JSVal.inf
            else if Real.cos (2 * Real.pi * 0.1) < 0 then JSVal.ninf else JSVal.nan := rfl
      rw [h2, if_pos hcos]
    rw [hmc]
  have hpath : generatePath 0 1 1 1 100 22643 = [(0, JSVal.num 100), (1, JSVal.inf)] := by
    have h : generatePath 0 1 1 1 100 22643
        = [(0, JSVal.num 100),
           (((1:ℕ) : ℝ) * (1 / ((1:ℕ) : ℝ)),
            jadd
              (jadd (JSVal.num 100)
                (jmul (jmul (JSVal.num 0) (JSVal.num 100)) (JSVal.num (1 / ((1:ℕ):ℝ)))))
              (jmul
                (jmul (jmul (JSVal.num 1) (JSVal.num 100))
                  (JSVal.num (Real.sqrt (1 / ((1:ℕ):ℝ)))))
                (random 22643).1))] := rfl
    rw [h, hrand, show ((JSVal.inf, (0:ℕ)).1 : JSVal) = JSVal.inf from rfl]
    have hsq1 : Real.sqrt (1 / ((1:ℕ):ℝ)) = 1 := by
      norm_num [Real.sqrt_one]
    rw [hsq1]
    have hmul1 : jmul (jmul (jmul (JSVal.num 1) (JSVal.num 100)) (JSVal.num 1)) JSVal.inf
        = JSVal.inf := by
      rw [show jmul (jmul (JSVal.num 1) (JSVal.num 100)) (JSVal.num 1)
          = JSVal.num (1 * 100 * 1) from rfl]
      have h2 : jmul (JSVal.num (1 * 100 * 1)) JSVal.inf
          = if (0:ℝ) < 1 * 100 * 1 then JSVal.inf
            else if (1 * 100 * 1 : ℝ) < 0 then JSVal.ninf else JSVal.nan := rfl
      rw [h2, if_pos (by norm_num)]
    rw [hmul1]
    rw [show jadd
        (jadd (JSVal.num 100)
          (jmul (jmul (JSVal.num 0) (JSVal.num 100)) (JSVal.num (1 / ((1:ℕ):ℝ)))))
        JSVal.inf = JSVal.inf from rfl]
    norm_num
  rw [hpath]
  exact ⟨(1, JSVal.inf), by simp, rfl⟩

end SpecialValueClaims

/-! ## Claim C4: monotonicity of the call price in `S`, `sigma` and `T` -/

section Monotonicity

open Real Set Filter Topology

/-- Key Black-Scholes identity: `S * pdf d1 = K * exp (-r*T) * pdf d2`. -/
lemma pdf_ratio (S K r T sigma : ℝ) (hS : 0 < S) (hK : 0 < K) (hT : 0 < T)
    (hsig : 0 < sigma) :
    S * pdf (calculateD1 S K r T sigma)
      = K * Real.exp (-r * T) * pdf (calculateD2 (calculateD1 S K r T sigma) sigma T) := by
  have hA : sigma * Real.sqrt T ≠ 0 :=
    ne_of_gt (mul_pos hsig (Real.sqrt_pos.mpr hT))
  have hA2 : (sigma * Real.sqrt T) * (sigma * Real.sqrt T) = sigma * sigma * T := by
    rw [mul_mul_mul_comm, Real.mul_self_sqrt hT.le]
  have hSK : (0:ℝ) < S / K := div_pos hS hK
  have hd1A : calculateD1 S K r T sigma * (sigma * Real.sqrt T)
      = Real.log (S / K) + (r + sigma * sigma / 2) * T := by
    unfold calculateD1
    field_simp
    ring
  set d1 := calculateD1 S K r T sigma with hd1def
  set A := sigma * Real.sqrt T with hAdef
  have key : S * Real.exp (-0.5 * d1 * d1)
      = K * Real.exp (-r * T) * Real.exp (-0.5 * (d1 - A) * (d1 - A)) := by
    have hexpo : (-r * T) + (-0.5 * (d1 - A) * (d1 - A))
        = Real.log (S / K) + (-0.5 * d1 * d1) := by
      linear_combination hd1A - (1/2) * hA2
    symm
    calc K * Real.exp (-r * T) * Real.exp (-0.5 * (d1 - A) * (d1 - A))
        = K * Real.exp ((-r * T) + (-0.5 * (d1 - A) * (d1 - A))) := by
          rw [mul_assoc, ← Real.exp_add]
      _ = K * (S / K * Real.exp (-0.5 * d1 * d1)) := by
          rw [hexpo, Real.exp_add, Real.exp_log hSK]
      _ = S * Real.exp (-0.5 * d1 * d1) := by
          field_simp
  unfold pdf calculateD2
  rw [← hAdef, ← mul_div_assoc, ← mul_div_assoc, key]

/-- Monotonicity on `Ioi 0` from a pointwise derivative with a nonnegative
value. -/
lemma monotoneOn_Ioi_of_hasDerivAt {f g : ℝ → ℝ}
    (hd : ∀ x ∈ Set.Ioi (0:ℝ), HasDerivAt f (g x) x)
    (h0 : ∀ x ∈ Set.Ioi (0:ℝ), 0 ≤ g x) : MonotoneOn f (Set.Ioi 0) := by
  apply monotoneOn_of_deriv_nonneg (convex_Ioi 0)
  · exact fun x hx => (hd x hx).continuousAt.continuousWithinAt
  · intro x hx
    rw [interior_Ioi] at hx
    exact (hd x hx).differentiableAt.differentiableWithinAt
  · intro x hx
    rw [interior_Ioi] at hx
    rw [(hd x hx).deriv]
    exact h0 x hx

lemma call_monotoneS_on (K r T sigma : ℝ) (hK : 0 < K) (hT : 0 < T) (hsig : 0 < sigma) :
    MonotoneOn (fun s => calculateOptionPrice .call s K r T sigma) (Set.Ioi 0) := by
  have hderiv : ∀ S ∈ Set.Ioi (0:ℝ),
      HasDerivAt (fun s => calculateOptionPrice .call s K r T sigma)
        (cdf (calculateD1 S K r T sigma)) S := by
    intro S hS
    have hfun : (fun s => calculateOptionPrice .call s K r T sigma)
        = fun s => s * cdf (calculateD1 s K r T sigma)
            - K * Real.exp (-r * T) * cdf (calculateD2 (calculateD1 s K r T sigma) sigma T) := by
      funext s
      exact call_formula s K r T sigma hT
    rw [hfun]
    have hlogd : HasDerivAt (fun s : ℝ => Real.log (s / K)) (1 / S) S := by
      have h1 : HasDerivAt (fun s : ℝ => s / K) (1 / K) S := by
        simpa using (hasDerivAt_id S).div_const K
      have hS0 : (0:ℝ) < S := hS
      have h2 := (Real.hasDerivAt_log (ne_of_gt (div_pos hS0 hK))).comp S h1
      convert h2 using 1
      field_simp
    have hd1 : HasDerivAt (fun s => calculateD1 s K r T sigma)
        (1 / (S * (sigma * Real.sqrt T))) S := by
      unfold calculateD1
      have h3 := (hlogd.add_const ((r + sigma * sigma / 2) * T)).div_const
        (sigma * Real.sqrt T)
      convert h3 using 1
      rw [div_div]
    have hd2 : HasDerivAt (fun s => calculateD2 (calculateD1 s K r T sigma) sigma T)
        (1 / (S * (sigma * Real.sqrt T))) S := by
      unfold calculateD2
      exact hd1.sub_const _
    have hc1 := (hasDerivAt_cdf (calculateD1 S K r T sigma)).comp S hd1
    have hc2 := (hasDerivAt_cdf (calculateD2 (calculateD1 S K r T sigma) sigma T)).comp S hd2
    have hP1 := (hasDerivAt_id S).mul hc1
    have hP2 := hc2.const_mul (K * Real.exp (-r * T))
    have htot := hP1.sub hP2
    convert htot using 1
    have hkey := pdf_ratio S K r T sigma hS hK hT hsig
    have hKe : K * Real.exp (-r * T) ≠ 0 := ne_of_gt (mul_pos hK (Real.exp_pos _))
    have hpdf2 : pdf (calculateD2 (calculateD1 S K r T sigma) sigma T)
        = S * pdf (calculateD1 S K r T sigma) / (K * Real.exp (-r * T)) := by
      rw [eq_div_iff hKe]
      linear_combination -hkey
    rw [hpdf2]
    have hSne : S ≠ 0 := ne_of_gt hS
    have hA : sigma * Real.sqrt T ≠ 0 := ne_of_gt (mul_pos hsig (Real.sqrt_pos.mpr hT))
    field_simp
    ring
  exact monotoneOn_Ioi_of_hasDerivAt hderiv (fun _ _ => cdf_nonneg _)

/-- C4: for every `K > 0`, `r ≥ 0`, `T ≥ 0`, `sigma > 0` the call price is
monotone non-decreasing in the underlying price `S` (for `S > 0`),
non-decreasing in the volatility `sigma`, and non-decreasing in the time to
maturity `T` (including across the `T = 0` intrinsic-value boundary). -/
theorem call_price_monotone (S K r T sigma : ℝ) (hS : 0 < S) (hK : 0 < K) (hr : 0 ≤ r)
    (hT : 0 ≤ T) (hsig : 0 < sigma) :
    (∀ S2, S ≤ S2 →
      calculateOptionPrice .call S K r T sigma ≤ calculateOptionPrice .call S2 K r T sigma) ∧
    (∀ sigma2, sigma ≤ sigma2 →
      calculateOptionPrice .call S K r T sigma
        ≤ calculateOptionPrice .call S K r T sigma2) ∧
    (∀ T2, T ≤ T2 →
      calculateOptionPrice .call S K r T sigma
        ≤ calculateOptionPrice .call S K r T2 sigma) := by
  refine ⟨?_, ?_, ?_⟩
  · intro S2 hle
    rcases le_or_lt T 0 with h | h
    · simp only [calculateOptionPrice, if_pos h]
      exact max_le_max le_rfl (by linarith)
    · exact call_monotoneS_on K r T sigma hK h hsig hS (lt_of_lt_of_le hS hle) hle
  · intro sigma2 hle
    rcases le_or_lt T 0 with h | h
    · simp only [calculateOptionPrice, if_pos h]
      exact le_rfl
    · have msig : MonotoneOn (fun v => calculateOptionPrice .call S K r T v) (Set.Ioi 0) := by
        have hT : 0 < T := h
        have hderiv : ∀ sigma ∈ Set.Ioi (0:ℝ),
            HasDerivAt (fun v => calculateOptionPrice .call S K r T v)
              (S * Real.sqrt T * pdf (calculateD1 S K r T sigma)) sigma := by
          intro sigma hsig
          have hfun : (fun v => calculateOptionPrice .call S K r T v)
              = fun v => S * cdf (calculateD1 S K r T v)
                  - K * Real.exp (-r * T) * cdf (calculateD2 (calculateD1 S K r T v) v T) := by
            funext v
            exact call_formula S K r T v hT
          rw [hfun]
          have hA : sigma * Real.sqrt T ≠ 0 := ne_of_gt (mul_pos hsig (Real.sqrt_pos.mpr hT))
          have hd1 : HasDerivAt (fun v => calculateD1 S K r T v)
              (((1 * sigma + sigma * 1) / 2 * T * (sigma * Real.sqrt T)
                  - (Real.log (S / K) + (r + sigma * sigma / 2) * T) * (1 * Real.sqrt T))
                / (sigma * Real.sqrt T) ^ 2) sigma := by
            unfold calculateD1
            have h1 := ((hasDerivAt_id sigma).mul (hasDerivAt_id sigma)).div_const 2
            have h2 := (h1.const_add r).mul_const T
            have h3 := h2.const_add (Real.log (S / K))
            have hw : HasDerivAt (fun v : ℝ => v * Real.sqrt T) (1 * Real.sqrt T) sigma :=
              (hasDerivAt_id sigma).mul_const (Real.sqrt T)
            exact h3.div hw hA
          have hd2 := hd1.sub ((hasDerivAt_id sigma).mul_const (Real.sqrt T))
          have hc1 := (hasDerivAt_cdf (calculateD1 S K r T sigma)).comp sigma hd1
          have hc2 : HasDerivAt (fun v => cdf (calculateD2 (calculateD1 S K r T v) v T))
              (pdf (calculateD2 (calculateD1 S K r T sigma) sigma T)
                * (((1 * sigma + sigma * 1) / 2 * T * (sigma * Real.sqrt T)
                  - (Real.log (S / K) + (r + sigma * sigma / 2) * T) * (1 * Real.sqrt T))
                / (sigma * Real.sqrt T) ^ 2 - 1 * Real.sqrt T)) sigma := by
            have h := (hasDerivAt_cdf (calculateD2 (calculateD1 S K r T sigma) sigma T)).comp
              sigma hd2
            convert h using 2
          have htot := (hc1.const_mul S).sub (hc2.const_mul (K * Real.exp (-r * T)))
          convert htot using 1
          have hkey := pdf_ratio S K r T sigma hS hK hT hsig
          have hKe : K * Real.exp (-r * T) ≠ 0 := ne_of_gt (mul_pos hK (Real.exp_pos _))
          have hpdf2 : pdf (calculateD2 (calculateD1 S K r T sigma) sigma T)
              = S * pdf (calculateD1 S K r T sigma) / (K * Real.exp (-r * T)) := by
            rw [eq_div_iff hKe]
            linear_combination -hkey
          rw [hpdf2]
          field_simp
          ring
        exact monotoneOn_Ioi_of_hasDerivAt hderiv
          (fun v _ => mul_nonneg (mul_nonneg hS.le (Real.sqrt_nonneg _)) (pdf_nonneg _))
      exact msig hsig (lt_of_lt_of_le hsig hle) hle
  · intro T2 hle
    rcases eq_or_lt_of_le hT with h0 | hpos
    · rcases le_or_lt T2 0 with h2 | h2
      · simp only [calculateOptionPrice, if_pos (show T ≤ 0 by rw [← h0]), if_pos h2]
        exact le_rfl
      · have hgi : ∀ T : ℝ, 0 < T →
          max 0 (S - K) ≤ calculateOptionPrice .call S K r T sigma := by
          intro T hT
          have call_nonneg : ∀ S K r T sigma : ℝ, 0 < S → 0 < K → 0 < T → 0 < sigma →
                0 ≤ calculateOptionPrice .call S K r T sigma := by
              intro S K r T sigma hS hK hT hsig
              have hmono := call_monotoneS_on K r T sigma hK hT hsig
              have hlim : Tendsto (fun s => calculateOptionPrice .call s K r T sigma)
                  (𝓝[>] (0:ℝ)) (𝓝 0) := by
                have hfun : (fun s => calculateOptionPrice .call s K r T sigma)
                    = fun s => s * cdf (calculateD1 s K r T sigma)
                        - K * Real.exp (-r * T) * cdf (calculateD2 (calculateD1 s K r T sigma) sigma T) := by
                  funext s
                  exact call_formula s K r T sigma hT
                rw [hfun]
                have hdiv : Tendsto (fun s : ℝ => s / K) (𝓝[>] 0) (𝓝[>] 0) := by
                  apply tendsto_nhdsWithin_of_tendsto_nhds_of_eventually_within
                  · have h0 := (continuous_id.div_const K).tendsto (0:ℝ)
                    simp only [id_eq, zero_div] at h0
                    exact h0.mono_left nhdsWithin_le_nhds
                  · filter_upwards [self_mem_nhdsWithin] with s hs
                    exact div_pos hs hK
                have hlog : Tendsto (fun s : ℝ => Real.log (s / K)) (𝓝[>] 0) atBot :=
                  Real.tendsto_log_nhdsWithin_zero_right.comp hdiv
                have hd1 : Tendsto (fun s => calculateD1 s K r T sigma) (𝓝[>] 0) atBot := by
                  unfold calculateD1
                  apply Tendsto.atBot_div_const (mul_pos hsig (Real.sqrt_pos.mpr hT))
                  exact tendsto_atBot_add_const_right _ _ hlog
                have hd2 : Tendsto (fun s => calculateD2 (calculateD1 s K r T sigma) sigma T)
                    (𝓝[>] 0) atBot := by
                  unfold calculateD2
                  simp only [sub_eq_add_neg]
                  exact tendsto_atBot_add_const_right _ _ hd1
                have hc1 : Tendsto (fun s => cdf (calculateD1 s K r T sigma)) (𝓝[>] 0) (𝓝 0) :=
                  cdf_tendsto_atBot.comp hd1
                have hc2 : Tendsto (fun s => cdf (calculateD2 (calculateD1 s K r T sigma) sigma T))
                    (𝓝[>] 0) (𝓝 0) :=
                  cdf_tendsto_atBot.comp hd2
                have hid : Tendsto (fun s : ℝ => s) (𝓝[>] (0:ℝ)) (𝓝 0) :=
                  (continuous_id.tendsto (0:ℝ)).mono_left nhdsWithin_le_nhds
                have hfin := (hid.mul hc1).sub (hc2.const_mul (K * Real.exp (-r * T)))
                simpa using hfin
              have hev : ∀ᶠ s in 𝓝[>] (0:ℝ),
                  calculateOptionPrice .call s K r T sigma ≤ calculateOptionPrice .call S K r T sigma := by
                have hIoo : Set.Ioo (0:ℝ) S ∈ 𝓝[>] (0:ℝ) :=
                  Ioo_mem_nhdsWithin_Ioi ⟨le_rfl, hS⟩
                filter_upwards [hIoo] with s hs
                exact hmono hs.1 hS hs.2.le
              exact le_of_tendsto hlim hev
          have h0 := call_nonneg S K r T sigma hS hK hT hsig
          have hput : 0 ≤ calculateOptionPrice .put S K r T sigma := by
            have hKe : 0 < K * Real.exp (-r * T) := mul_pos hK (Real.exp_pos _)
            have hA : sigma * Real.sqrt T ≠ 0 := ne_of_gt (mul_pos hsig (Real.sqrt_pos.mpr hT))
            have hTT : Real.sqrt T * Real.sqrt T = T := Real.mul_self_sqrt hT.le
            have hd1 : calculateD1 (K * Real.exp (-r * T)) S 0 T sigma
                = -(calculateD2 (calculateD1 S K r T sigma) sigma T) := by
              unfold calculateD1 calculateD2
              rw [Real.log_div (ne_of_gt hKe) (ne_of_gt hS),
                Real.log_mul (ne_of_gt hK) (Real.exp_ne_zero _), Real.log_exp,
                Real.log_div (ne_of_gt hS) (ne_of_gt hK)]
              field_simp
              linear_combination (-2 * sigma * sigma) * hTT
            have hd2 : calculateD2 (calculateD1 (K * Real.exp (-r * T)) S 0 T sigma) sigma T
                = -(calculateD1 S K r T sigma) := by
              unfold calculateD2
              rw [hd1]
              unfold calculateD2
              ring
            have hsym : calculateOptionPrice .put S K r T sigma
                = calculateOptionPrice .call (K * Real.exp (-r * T)) S 0 T sigma := by
              rw [put_formula S K r T sigma hT, call_formula (K * Real.exp (-r * T)) S 0 T sigma hT,
                hd2, hd1]
              norm_num
            rw [hsym]
            exact call_nonneg _ _ _ _ _ hKe hS hT hsig
          have hpar := parity_eq S K r T sigma hT.le
          have hexp : Real.exp (-r * T) ≤ 1 := by
            rw [Real.exp_le_one_iff]
            nlinarith
          have h1 : S - K ≤ calculateOptionPrice .call S K r T sigma := by
            have hKe2 : K * Real.exp (-r * T) ≤ K := by nlinarith [Real.exp_pos (-r * T)]
            linarith
          exact max_le h0 h1
        have hbase : calculateOptionPrice .call S K r T sigma = max 0 (S - K) := by
          simp [calculateOptionPrice, show T ≤ 0 by rw [← h0]]
        rw [hbase]
        exact hgi T2 h2
    · have mT : MonotoneOn (fun t => calculateOptionPrice .call S K r t sigma) (Set.Ioi 0) := by
        have hderiv : ∀ T ∈ Set.Ioi (0:ℝ),
            HasDerivAt (fun t => calculateOptionPrice .call S K r t sigma)
              (S * pdf (calculateD1 S K r T sigma) * sigma / (2 * Real.sqrt T)
                + r * (K * Real.exp (-r * T))
                  * cdf (calculateD2 (calculateD1 S K r T sigma) sigma T)) T := by
          intro T hT
          have hev : (fun t => calculateOptionPrice .call S K r t sigma)
              =ᶠ[nhds T] fun t => S * cdf (calculateD1 S K r t sigma)
                  - K * Real.exp (-r * t) * cdf (calculateD2 (calculateD1 S K r t sigma) sigma t) := by
            filter_upwards [eventually_gt_nhds hT] with t ht
            exact call_formula S K r t sigma ht
          rw [Filter.EventuallyEq.hasDerivAt_iff hev]
          have hA : sigma * Real.sqrt T ≠ 0 := ne_of_gt (mul_pos hsig (Real.sqrt_pos.mpr hT))
          have hd1 : HasDerivAt (fun t => calculateD1 S K r t sigma)
              (((r + sigma * sigma / 2) * 1 * (sigma * Real.sqrt T)
                  - (Real.log (S / K) + (r + sigma * sigma / 2) * T)
                    * (sigma * (1 / (2 * Real.sqrt T))))
                / (sigma * Real.sqrt T) ^ 2) T := by
            unfold calculateD1
            have hu := ((hasDerivAt_id T).const_mul (r + sigma * sigma / 2)).const_add
              (Real.log (S / K))
            have hw : HasDerivAt (fun t : ℝ => sigma * Real.sqrt t)
                (sigma * (1 / (2 * Real.sqrt T))) T := by
              have h := hasDerivAt_sqrt (ne_of_gt hT)
              simpa [mul_comm] using h.const_mul sigma
            exact hu.div hw hA
          have hsq := hasDerivAt_sqrt (ne_of_gt hT)
          have hd2 : HasDerivAt (fun t => calculateD2 (calculateD1 S K r t sigma) sigma t)
              (((r + sigma * sigma / 2) * 1 * (sigma * Real.sqrt T)
                  - (Real.log (S / K) + (r + sigma * sigma / 2) * T)
                    * (sigma * (1 / (2 * Real.sqrt T))))
                / (sigma * Real.sqrt T) ^ 2 - sigma * (1 / (2 * Real.sqrt T))) T := by
            unfold calculateD2
            have hw : HasDerivAt (fun t : ℝ => sigma * Real.sqrt t)
                (sigma * (1 / (2 * Real.sqrt T))) T := by
              simpa [mul_comm] using hsq.const_mul sigma
            exact hd1.sub hw
          have hexpd : HasDerivAt (fun t : ℝ => Real.exp (-r * t))
              (Real.exp (-r * T) * (-r * 1)) T :=
            (Real.hasDerivAt_exp (-r * T)).comp T ((hasDerivAt_id T).const_mul (-r))
          have hKe := hexpd.const_mul K
          have hc1 := (hasDerivAt_cdf (calculateD1 S K r T sigma)).comp T hd1
          have hc2 : HasDerivAt (fun t => cdf (calculateD2 (calculateD1 S K r t sigma) sigma t))
              (pdf (calculateD2 (calculateD1 S K r T sigma) sigma T)
                * (((r + sigma * sigma / 2) * 1 * (sigma * Real.sqrt T)
                  - (Real.log (S / K) + (r + sigma * sigma / 2) * T)
                    * (sigma * (1 / (2 * Real.sqrt T))))
                  / (sigma * Real.sqrt T) ^ 2 - sigma * (1 / (2 * Real.sqrt T)))) T := by
            have hcomp : ∀ (f : ℝ → ℝ) (f2 : ℝ), HasDerivAt f f2 T →
                HasDerivAt (fun t => cdf (f t)) (pdf (f T) * f2) T :=
              fun f f2 hf => (hasDerivAt_cdf (f T)).comp T hf
            have h := hcomp _ _ hd2
            convert h using 2
          have htot := (hc1.const_mul S).sub (hKe.mul hc2)
          convert htot using 1
          have hkey := pdf_ratio S K r T sigma hS hK hT hsig
          have hKene : K * Real.exp (-r * T) ≠ 0 := ne_of_gt (mul_pos hK (Real.exp_pos _))
          have hpdf2 : pdf (calculateD2 (calculateD1 S K r T sigma) sigma T)
              = S * pdf (calculateD1 S K r T sigma) / (K * Real.exp (-r * T)) := by
            rw [eq_div_iff hKene]
            linear_combination -hkey
          rw [hpdf2]
          have hsqT : Real.sqrt T ≠ 0 := ne_of_gt (Real.sqrt_pos.mpr hT)
          field_simp
          ring
        apply monotoneOn_Ioi_of_hasDerivAt hderiv
        intro t ht
        have h1 : 0 ≤ S * pdf (calculateD1 S K r t sigma) * sigma / (2 * Real.sqrt t) :=
          div_nonneg (mul_nonneg (mul_nonneg hS.le (pdf_nonneg _)) hsig.le)
            (by positivity)
        have h2 : 0 ≤ r * (K * Real.exp (-r * t))
            * cdf (calculateD2 (calculateD1 S K r t sigma) sigma t) :=
          mul_nonneg (mul_nonneg hr (mul_pos hK (Real.exp_pos _)).le) (cdf_nonneg _)
        linarith
      exact mT hpos (lt_of_lt_of_le hpos hle) hle

/-- Witness for `call_price_monotone` at `S = K = sigma = T = 1`, `r = 0`,
comparing against `S = 2`, `sigma = 2`, `T = 2`. -/
theorem call_price_monotone_witness :
    calculateOptionPrice .call 1 1 0 1 1 ≤ calculateOptionPrice .call 2 1 0 1 1 ∧
    calculateOptionPrice .call 1 1 0 1 1 ≤ calculateOptionPrice .call 1 1 0 1 2 ∧
    calculateOptionPrice .call 1 1 0 1 1 ≤ calculateOptionPrice .call 1 1 0 2 1 := by
  have h := call_price_monotone 1 1 0 1 1 (by norm_num) (by norm_num) le_rfl
    (by norm_num) (by norm_num)
  exact ⟨h.1 2 (by norm_num), h.2.1 2 (by norm_num), h.2.2 2 (by norm_num)⟩

end Monotonicity

end OptionChart
